import Mathlib

/-!
# GroundHog — verification of the tool-calling agent core

A shallow embedding of the GroundHog agent (Go) in Lean 4, together with
theorems settling the frozen claims about its specification.

The embedding covers:
* a model of Go `encoding/json` values, parsing and canonical serialization
  (needed by the Argument Normalizer and the tasks tool),
* `normalizeToolInput`, `ParseOutput`, `constructScratchPad` and the
  post-generation fragment of `Plan` from the agent package,
* the Execution Loop (which lives in the langchaingo dependency, modelled
  from the specification),
* the `NotesReader` tool and the `ListTasks` tool input handling.
-/

set_option maxHeartbeats 1000000

namespace GroundHog

/-! ## JSON value model

Modelled from the spec: the Go standard library `encoding/json` codec used by
`normalizeToolInput` and `parseListTasksInput` is not part of the repository.
The spec describes it as "parse as a JSON object (mapping of string keys to
arbitrary values)" and "re-serialize the object to canonical JSON (stable key
order)".  Numbers are kept as their source literals; objects decoded into Go
maps are represented as key-sorted association lists (Go maps are unordered
and `json.Marshal` emits map keys in sorted order). -/

inductive Json where
  | null : Json
  | bool (b : Bool) : Json
  | num (lit : String) : Json
  | str (s : String) : Json
  | arr (elems : List Json) : Json
  | obj (entries : List (String × Json)) : Json
deriving Repr

/-- ASCII whitespace accepted between JSON tokens. -/
def isWsChar (c : Char) : Bool :=
  c = ' ' || c = '\t' || c = '\n' || c = '\r'

/-- Skip inter-token whitespace. -/
def skipWs (cs : List Char) : List Char := cs.dropWhile isWsChar

/-- Hexadecimal digit test, for string escapes. -/
def isHexDigit (c : Char) : Bool :=
  ('0' ≤ c && c ≤ '9') || ('a' ≤ c && c ≤ 'f') || ('A' ≤ c && c ≤ 'F')

/-- Value of a hexadecimal digit. -/
def hexVal (c : Char) : Nat :=
  if c ≤ '9' then c.toNat - 48 else if c ≤ 'F' then c.toNat - 55 else c.toNat - 87

/-- Lower-case hexadecimal digit for a value below 16. -/
def hexDigit (n : Nat) : Char :=
  if n < 10 then Char.ofNat (48 + n) else Char.ofNat (87 + n)

/-- Decoding of a single-character JSON string escape. -/
def unescapeChar (e : Char) : Option Char :=
  if e = '"' then some '"'
  else if e = '\\' then some '\\'
  else if e = '/' then some '/'
  else if e = 'b' then some (Char.ofNat 8)
  else if e = 'f' then some (Char.ofNat 12)
  else if e = 'n' then some '\n'
  else if e = 'r' then some '\r'
  else if e = 't' then some '\t'
  else none

/-- JSON string body parser: input is positioned after the opening quote,
`acc` holds already-decoded characters in reverse. -/
def parseStrAux : List Char → List Char → Option (String × List Char)
  | [], _ => none
  | c :: rest, acc =>
    if c = '"' then some (String.mk acc.reverse, rest)
    else if c = '\\' then
      match rest with
      | [] => none
      | e :: rest2 =>
        if e = 'u' then
          match rest2 with
          | h1 :: h2 :: h3 :: h4 :: rest3 =>
            if isHexDigit h1 && isHexDigit h2 && isHexDigit h3 && isHexDigit h4 then
              parseStrAux rest3
                (Char.ofNat (((hexVal h1 * 16 + hexVal h2) * 16 + hexVal h3) * 16 + hexVal h4)
                  :: acc)
            else none
          | _ => none
        else
          match unescapeChar e with
          | some d => parseStrAux rest2 (d :: acc)
          | none => none
    else parseStrAux rest (c :: acc)

/-- Characters a number literal may contain. -/
def isNumChar (c : Char) : Bool :=
  c.isDigit || c = '-' || c = '+' || c = '.' || c = 'e' || c = 'E'

/-- Characters a number literal may start with. -/
def isNumStart (c : Char) : Bool := c.isDigit || c = '-'

mutual

/-- Fuel-indexed recursive-descent parser for one JSON value. -/
def parseVal : Nat → List Char → Option (Json × List Char)
  | 0, _ => none
  | fuel + 1, cs =>
    match skipWs cs with
    | [] => none
    | c :: rest =>
      if c = '\x7b' then parseMembers fuel rest []
      else if c = '[' then parseElems fuel rest []
      else if c = '"' then
        match parseStrAux rest [] with
        | some (s, r) => some (Json.str s, r)
        | none => none
      else if c = 't' then
        match rest with
        | 'r' :: 'u' :: 'e' :: rest2 => some (Json.bool true, rest2)
        | _ => none
      else if c = 'f' then
        match rest with
        | 'a' :: 'l' :: 's' :: 'e' :: rest2 => some (Json.bool false, rest2)
        | _ => none
      else if c = 'n' then
        match rest with
        | 'u' :: 'l' :: 'l' :: rest2 => some (Json.null, rest2)
        | _ => none
      else if isNumStart c then
        some (Json.num (String.mk (c :: rest.takeWhile isNumChar)), rest.dropWhile isNumChar)
      else none

/-- Object members: input is positioned after `\x7b` or after a comma;
`acc` holds already-parsed members in reverse. -/
def parseMembers : Nat → List Char → List (String × Json) → Option (Json × List Char)
  | 0, _, _ => none
  | fuel + 1, cs, acc =>
    match skipWs cs with
    | [] => none
    | c :: rest =>
      if c = '\x7d' then
        if acc.isEmpty then some (Json.obj [], rest) else none
      else if c = '"' then
        match parseStrAux rest [] with
        | none => none
        | some (k, r1) =>
          match skipWs r1 with
          | ':' :: r2 =>
            match parseVal fuel r2 with
            | none => none
            | some (v, r3) =>
              match skipWs r3 with
              | ',' :: r4 => parseMembers fuel r4 ((k, v) :: acc)
              | '\x7d' :: r4 => some (Json.obj ((k, v) :: acc).reverse, r4)
              | _ => none
          | _ => none
      else none

/-- Array elements: input is positioned after `[` or after a comma;
`acc` holds already-parsed elements in reverse. -/
def parseElems : Nat → List Char → List Json → Option (Json × List Char)
  | 0, _, _ => none
  | fuel + 1, cs, acc =>
    match skipWs cs with
    | [] => none
    | c :: rest =>
      if c = ']' then
        if acc.isEmpty then some (Json.arr [], rest) else none
      else
        match parseVal fuel (c :: rest) with
        | none => none
        | some (v, r1) =>
          match skipWs r1 with
          | ',' :: r2 => parseElems fuel r2 (v :: acc)
          | ']' :: r2 => some (Json.arr (v :: acc).reverse, r2)
          | _ => none

end

/-- Escaping of one character inside a serialized JSON string
(quote, backslash and control characters, as Go emits them). -/
def escapeChar (c : Char) : List Char :=
  if c = '"' then ['\\', '"']
  else if c = '\\' then ['\\', '\\']
  else if c = '\n' then ['\\', 'n']
  else if c = '\r' then ['\\', 'r']
  else if c = '\t' then ['\\', 't']
  else if c.toNat < 32 then ['\\', 'u', '0', '0', hexDigit (c.toNat / 16), hexDigit (c.toNat % 16)]
  else [c]

/-- Serialization of a JSON string, quotes included. -/
def marshalStr (s : String) : List Char :=
  '"' :: (s.data.map escapeChar).flatten ++ ['"']

mutual

/-- Canonical serialization of a JSON value (no whitespace; objects are
emitted in stored key order, which is sorted for decoded Go maps). -/
def marshalVal : Json → List Char
  | .num lit => lit.data
  | .str s => marshalStr s
  | .bool b => if b then ['t', 'r', 'u', 'e'] else ['f', 'a', 'l', 's', 'e']
  | .null => ['n', 'u', 'l', 'l']
  | .arr es => '[' :: marshalElems es ++ [']']
  | .obj kvs => '\x7b' :: marshalMembers kvs ++ ['\x7d']

/-- Comma-separated serialization of array elements. -/
def marshalElems : List Json → List Char
  | [] => []
  | e :: es => marshalVal e ++ marshalElemsRest es

/-- Tail of an element list, each element preceded by a comma. -/
def marshalElemsRest : List Json → List Char
  | [] => []
  | e :: es => ',' :: marshalVal e ++ marshalElemsRest es

/-- Comma-separated serialization of object members. -/
def marshalMembers : List (String × Json) → List Char
  | [] => []
  | (k, v) :: kvs => marshalStr k ++ ':' :: marshalVal v ++ marshalMembersRest kvs

/-- Tail of a member list, each member preceded by a comma. -/
def marshalMembersRest : List (String × Json) → List Char
  | [] => []
  | (k, v) :: kvs => ',' :: marshalStr k ++ ':' :: marshalVal v ++ marshalMembersRest kvs

end

/-- Lexicographic (byte-order) comparison of character lists; UTF-8 byte
order coincides with code-point order. -/
def ltCharList : List Char → List Char → Bool
  | [], [] => false
  | [], _ :: _ => true
  | _ :: _, [] => false
  | c1 :: r1, c2 :: r2 =>
    decide (c1.toNat < c2.toNat) || (c1 = c2 && ltCharList r1 r2)

/-- The byte-wise string order `json.Marshal` sorts Go map keys by. -/
def ltStr (s t : String) : Bool := ltCharList s.data t.data

/-- Insertion of a decoded member into a key-sorted association list.
An already-present key keeps the stored value: the stored one came from a
later duplicate in source order, which wins in a Go map. -/
def insertEntry (k : String) (v : Json) : List (String × Json) → List (String × Json)
  | [] => [(k, v)]
  | (k2, v2) :: rest =>
    if ltStr k k2 then (k, v) :: (k2, v2) :: rest
    else if k = k2 then (k2, v2) :: rest
    else (k2, v2) :: insertEntry k v rest

mutual

/-- Conversion of a parsed value into Go-map form: every object becomes a
key-sorted, duplicate-free association list, recursively. -/
def canon : Json → Json
  | .null => .null
  | .bool b => .bool b
  | .num lit => .num lit
  | .str s => .str s
  | .arr es => .arr (canonList es)
  | .obj kvs => .obj (canonEntries kvs)

/-- `canon` applied to each element of an array. -/
def canonList : List Json → List Json
  | [] => []
  | e :: es => canon e :: canonList es

/-- Members in source order folded into a sorted duplicate-free list. -/
def canonEntries : List (String × Json) → List (String × Json)
  | [] => []
  | (k, v) :: rest => insertEntry k (canon v) (canonEntries rest)

end

/-- Association-list lookup, mirroring a Go map index expression. -/
def lookupEntry (k : String) : List (String × Json) → Option Json
  | [] => none
  | (k2, v) :: rest => if k2 = k then some v else lookupEntry k rest

/-- Well-formed number literal: nonempty, valid start, number characters only. -/
def numLitOk (lit : String) : Bool :=
  match lit.data with
  | [] => false
  | c :: cs => isNumStart c && (c :: cs).all isNumChar

/-- Adjacent-key sortedness of an association list. -/
def keysSorted : List (String × Json) → Bool
  | [] => true
  | [_] => true
  | (k1, _) :: (k2, v2) :: rest =>
    ltStr k1 k2 && keysSorted ((k2, v2) :: rest)

mutual

/-- Canonical (Go-map shaped) values: sorted duplicate-free object keys and
well-formed number literals, recursively. -/
def canonicalV : Json → Bool
  | .null => true
  | .bool _ => true
  | .num lit => numLitOk lit
  | .str _ => true
  | .arr es => canonicalList es
  | .obj kvs => keysSorted kvs && canonicalMembers kvs

/-- `canonicalV` over an element list. -/
def canonicalList : List Json → Bool
  | [] => true
  | e :: es => canonicalV e && canonicalList es

/-- `canonicalV` over the values of a member list. -/
def canonicalMembers : List (String × Json) → Bool
  | [] => true
  | (_, v) :: kvs => canonicalV v && canonicalMembers kvs

end

mutual

/-- Parser fuel sufficient for a value. -/
def jsonFuel : Json → Nat
  | .null => 1
  | .bool _ => 1
  | .num _ => 1
  | .str _ => 1
  | .arr es => 1 + elemsFuel es
  | .obj kvs => 1 + membersFuel kvs

/-- Parser fuel sufficient for an element list. -/
def elemsFuel : List Json → Nat
  | [] => 1
  | e :: es => 1 + max (jsonFuel e) (elemsFuel es)

/-- Parser fuel sufficient for a member list. -/
def membersFuel : List (String × Json) → Nat
  | [] => 1
  | (_, v) :: kvs => 1 + max (jsonFuel v) (membersFuel kvs)

end

/-- Go `unicode.IsSpace` on the ASCII range, as used by `strings.TrimSpace`. -/
def isSpaceGo (c : Char) : Bool :=
  c = ' ' || c = '\t' || c = '\n' || c = '\r' || c = '\x0b' || c = '\x0c'

/-- Modelled from the spec: Go `strings.TrimSpace` ("Trim whitespace"). -/
def trimSpace (s : String) : String :=
  String.mk (((s.data.dropWhile isSpaceGo).reverse.dropWhile isSpaceGo).reverse)

/-- Modelled from the spec: `json.Unmarshal` of the given text into a Go
`map[string]any` — the whole input must be a single JSON object (plus
trailing whitespace), and the decoded object takes Go-map form. -/
def unmarshalObject (s : String) : Option (List (String × Json)) :=
  match parseVal (s.data.length + 1) s.data with
  | some (Json.obj entries, rest) =>
    if skipWs rest = [] then some (canonEntries entries) else none
  | _ => none

/-- `normalizeToolInput` from the agent package: trim, attempt to parse as a
JSON object, unwrap a string-valued `__arg1`, otherwise re-serialize. -/
def normalizeToolInput (argStr : String) : String :=
  let trimmed := trimSpace argStr
  if trimmed = "" then ""
  else
    match unmarshalObject trimmed with
    | none => trimmed
    | some toolInputMap =>
      match lookupEntry "__arg1" toolInputMap with
      | some (Json.str argVal) => argVal
      | _ => String.mk (marshalVal (Json.obj toolInputMap))

/-! ## Round-trip: parsing a canonical serialization recovers the value -/

/-- The head of the remaining input, if any, fails the predicate. -/
def headNot (p : Char → Bool) : List Char → Prop
  | [] => True
  | c :: _ => p c = false

theorem skipWs_cons (c : Char) (cs : List Char) (h : isWsChar c = false) :
    skipWs (c :: cs) = c :: cs := by
  simp [skipWs, List.dropWhile_cons, h]

theorem takeWhile_all_append {p : Char → Bool} {cs rest : List Char}
    (h : cs.all p = true) (h2 : headNot p rest) :
    (cs ++ rest).takeWhile p = cs ∧ (cs ++ rest).dropWhile p = rest := by
  induction cs with
  | nil =>
    cases rest with
    | nil => simp
    | cons r rs => simp_all [headNot, List.takeWhile_cons, List.dropWhile_cons]
  | cons c cs ih =>
    simp only [List.all_cons, Bool.and_eq_true] at h
    have := ih h.2
    simp_all [List.takeWhile_cons, List.dropWhile_cons]

theorem hexVal_hexDigit : ∀ k, k < 16 → hexVal (hexDigit k) = k := by decide

theorem isHexDigit_hexDigit : ∀ k, k < 16 → isHexDigit (hexDigit k) = true := by decide

theorem parseStrAux_quote (rest acc : List Char) :
    parseStrAux ('"' :: rest) acc = some (String.mk acc.reverse, rest) := by
  rw [parseStrAux.eq_def]; simp

theorem parseStrAux_escQuote (rest acc : List Char) :
    parseStrAux ('\\' :: '"' :: rest) acc = parseStrAux rest ('"' :: acc) := by
  rw [parseStrAux.eq_def]; simp [unescapeChar]

theorem parseStrAux_escBackslash (rest acc : List Char) :
    parseStrAux ('\\' :: '\\' :: rest) acc = parseStrAux rest ('\\' :: acc) := by
  rw [parseStrAux.eq_def]; simp [unescapeChar]

theorem parseStrAux_escN (rest acc : List Char) :
    parseStrAux ('\\' :: 'n' :: rest) acc = parseStrAux rest ('\n' :: acc) := by
  rw [parseStrAux.eq_def]; simp [unescapeChar]

theorem parseStrAux_escR (rest acc : List Char) :
    parseStrAux ('\\' :: 'r' :: rest) acc = parseStrAux rest ('\r' :: acc) := by
  rw [parseStrAux.eq_def]; simp [unescapeChar]

theorem parseStrAux_escT (rest acc : List Char) :
    parseStrAux ('\\' :: 't' :: rest) acc = parseStrAux rest ('\t' :: acc) := by
  rw [parseStrAux.eq_def]; simp [unescapeChar]

theorem parseStrAux_escU (d1 d2 : Char) (rest acc : List Char)
    (hh1 : isHexDigit d1 = true) (hh2 : isHexDigit d2 = true) :
    parseStrAux ('\\' :: 'u' :: '0' :: '0' :: d1 :: d2 :: rest) acc
      = parseStrAux rest
          (Char.ofNat (((hexVal '0' * 16 + hexVal '0') * 16 + hexVal d1) * 16 + hexVal d2)
            :: acc) := by
  rw [parseStrAux.eq_def]
  simp [hh1, hh2, show isHexDigit '0' = true from rfl]

theorem parseStrAux_other (c : Char) (h1 : ¬ c = '"') (h2 : ¬ c = '\\')
    (rest acc : List Char) :
    parseStrAux (c :: rest) acc = parseStrAux rest (c :: acc) := by
  rw [parseStrAux.eq_def]; simp [h1, h2]

theorem parseStrAux_escape (cs : List Char) : ∀ (acc rest : List Char),
    parseStrAux ((cs.map escapeChar).flatten ++ '"' :: rest) acc
      = some (String.mk (acc.reverse ++ cs), rest) := by
  induction cs with
  | nil => intro acc rest; simp [parseStrAux_quote]
  | cons c cs ih =>
    intro acc rest
    simp only [List.map_cons, List.flatten_cons, List.append_assoc]
    by_cases h1 : c = '"'
    · subst h1
      rw [show escapeChar '"' = ['\\', '"'] from rfl]
      simp only [List.cons_append, List.nil_append]
      rw [parseStrAux_escQuote, ih]
      simp
    · by_cases h2 : c = '\\'
      · subst h2
        rw [show escapeChar '\\' = ['\\', '\\'] from rfl]
        simp only [List.cons_append, List.nil_append]
        rw [parseStrAux_escBackslash, ih]
        simp
      · by_cases h3 : c = '\n'
        · subst h3
          rw [show escapeChar '\n' = ['\\', 'n'] from rfl]
          simp only [List.cons_append, List.nil_append]
          rw [parseStrAux_escN, ih]
          simp
        · by_cases h4 : c = '\r'
          · subst h4
            rw [show escapeChar '\r' = ['\\', 'r'] from rfl]
            simp only [List.cons_append, List.nil_append]
            rw [parseStrAux_escR, ih]
            simp
          · by_cases h5 : c = '\t'
            · subst h5
              rw [show escapeChar '\t' = ['\\', 't'] from rfl]
              simp only [List.cons_append, List.nil_append]
              rw [parseStrAux_escT, ih]
              simp
            · by_cases h6 : c.toNat < 32
              · have hesc : escapeChar c
                    = ['\\', 'u', '0', '0', hexDigit (c.toNat / 16), hexDigit (c.toNat % 16)] := by
                  simp [escapeChar, h1, h2, h3, h4, h5, h6]
                rw [hesc]
                simp only [List.cons_append, List.nil_append]
                rw [parseStrAux_escU _ _ _ _
                  (isHexDigit_hexDigit _ (by omega)) (isHexDigit_hexDigit _ (by omega))]
                rw [hexVal_hexDigit _ (by omega), hexVal_hexDigit _ (by omega)]
                rw [show (hexVal '0' * 16 + hexVal '0') * 16 + c.toNat / 16
                    = c.toNat / 16 by rw [show hexVal '0' = 0 by decide]; omega]
                rw [show c.toNat / 16 * 16 + c.toNat % 16 = c.toNat by omega]
                rw [Char.ofNat_toNat, ih]
                simp
              · have hesc : escapeChar c = [c] := by
                  simp [escapeChar, h1, h2, h3, h4, h5, h6]
                rw [hesc]
                simp only [List.cons_append, List.nil_append]
                rw [parseStrAux_other c h1 h2, ih]
                simp

theorem parseStr_marshal (s : String) (rest : List Char) :
    parseStrAux ((s.data.map escapeChar).flatten ++ '"' :: rest) []
      = some (s, rest) := by
  rw [parseStrAux_escape]; rfl

/-- Structural induction principle for the nested inductive `Json`. -/
theorem Json.inductionOn (P : Json → Prop)
    (hnull : P .null) (hbool : ∀ b, P (.bool b)) (hnum : ∀ l, P (.num l))
    (hstr : ∀ s, P (.str s))
    (harr : ∀ es, (∀ e ∈ es, P e) → P (.arr es))
    (hobj : ∀ kvs, (∀ kv ∈ kvs, P kv.2) → P (.obj kvs)) :
    ∀ v, P v := by
  have main : ∀ n v, sizeOf v ≤ n → P v := by
    intro n
    induction n with
    | zero => intro v hv; exfalso; cases v <;> simp_all
    | succ n ih =>
      intro v hv
      cases v with
      | null => exact hnull
      | bool b => exact hbool b
      | num l => exact hnum l
      | str s => exact hstr s
      | arr es =>
        refine harr es (fun e he => ih e ?_)
        have := List.sizeOf_lt_of_mem he
        simp at hv
        omega
      | obj kvs =>
        refine hobj kvs (fun kv hkv => ih kv.2 ?_)
        have h1 := List.sizeOf_lt_of_mem hkv
        have h2 : sizeOf kv.2 < sizeOf kv := by
          obtain ⟨a, b⟩ := kv; simp
        simp at hv
        omega
  exact fun v => main (sizeOf v) v le_rfl

theorem jsonFuel_pos (v : Json) : 1 ≤ jsonFuel v := by
  cases v <;> simp [jsonFuel]

theorem membersFuel_pos (kvs : List (String × Json)) : 1 ≤ membersFuel kvs := by
  cases kvs with
  | nil => simp [membersFuel]
  | cons kv rest => obtain ⟨k, v⟩ := kv; simp [membersFuel]

theorem elemsFuel_pos (es : List Json) : 1 ≤ elemsFuel es := by
  cases es <;> simp [elemsFuel]

theorem marshalStr_length (s : String) : 2 ≤ (marshalStr s).length := by
  simp [marshalStr]

theorem marshalElemsRest_length (e : Json) (es : List Json) :
    (marshalElemsRest (e :: es)).length = 1 + (marshalElems (e :: es)).length := by
  simp [marshalElemsRest, marshalElems]
  omega

theorem marshalMembersRest_length (kv : String × Json) (kvs : List (String × Json)) :
    (marshalMembersRest (kv :: kvs)).length = 1 + (marshalMembers (kv :: kvs)).length := by
  obtain ⟨k, v⟩ := kv
  simp [marshalMembersRest, marshalMembers]
  omega

theorem elemsFuel_le_aux (l : List Json)
    (hmem : ∀ e ∈ l, canonicalV e = true → jsonFuel e ≤ (marshalVal e).length + 1)
    (hc : canonicalList l = true) :
    elemsFuel l ≤ (marshalElems l).length + 2 := by
  induction l with
  | nil => simp [elemsFuel, marshalElems]
  | cons e es ih =>
    simp only [canonicalList, Bool.and_eq_true] at hc
    have he : jsonFuel e ≤ (marshalVal e).length + 1 :=
      hmem e (List.mem_cons_self e es) hc.1
    have hes : elemsFuel es ≤ (marshalElems es).length + 2 :=
      ih (fun x hx => hmem x (List.mem_cons_of_mem e hx)) hc.2
    simp only [elemsFuel, marshalElems, List.length_append]
    cases es with
    | nil =>
      have h1 : max (jsonFuel e) (elemsFuel ([] : List Json))
          ≤ (marshalVal e).length + 1 := max_le he (by simp [elemsFuel])
      simp only [marshalElemsRest, List.length_nil]
      omega
    | cons f fs =>
      have hlen := marshalElemsRest_length f fs
      have h1 : max (jsonFuel e) (elemsFuel (f :: fs))
          ≤ (marshalVal e).length + (marshalElemsRest (f :: fs)).length + 1 := by
        apply max_le <;> omega
      omega

theorem membersFuel_le_aux (l : List (String × Json))
    (hmem : ∀ kv ∈ l, canonicalV kv.2 = true → jsonFuel kv.2 ≤ (marshalVal kv.2).length + 1)
    (hc : canonicalMembers l = true) :
    membersFuel l ≤ (marshalMembers l).length + 2 := by
  induction l with
  | nil => simp [membersFuel, marshalMembers]
  | cons kv kvs ih =>
    obtain ⟨k, v⟩ := kv
    simp only [canonicalMembers, Bool.and_eq_true] at hc
    have he : jsonFuel v ≤ (marshalVal v).length + 1 := hmem (k, v) (by simp) hc.1
    have hs := marshalStr_length k
    have hes : membersFuel kvs ≤ (marshalMembers kvs).length + 2 :=
      ih (fun x hx => hmem x (List.mem_cons_of_mem _ hx)) hc.2
    simp only [membersFuel, marshalMembers, List.length_append, List.length_cons]
    cases kvs with
    | nil =>
      have h1 : max (jsonFuel v) (membersFuel ([] : List (String × Json)))
          ≤ (marshalVal v).length + 1 := max_le he (by simp [membersFuel])
      simp only [marshalMembersRest, List.length_nil]
      omega
    | cons kv2 kvs2 =>
      have hlen := marshalMembersRest_length kv2 kvs2
      have h1 : max (jsonFuel v) (membersFuel (kv2 :: kvs2))
          ≤ (marshalVal v).length + (marshalMembersRest (kv2 :: kvs2)).length + 1 := by
        apply max_le <;> omega
      omega

theorem jsonFuel_le_marshal :
    ∀ v, canonicalV v = true → jsonFuel v ≤ (marshalVal v).length + 1 := by
  intro v
  induction v using Json.inductionOn with
  | hnull => intro _; simp [jsonFuel, marshalVal]
  | hbool b => intro _; cases b <;> simp [jsonFuel, marshalVal]
  | hnum l => intro _; simp [jsonFuel, marshalVal]
  | hstr s => intro _; simp [jsonFuel, marshalVal]
  | harr es ihes =>
    intro hc
    simp only [canonicalV] at hc
    have := elemsFuel_le_aux es ihes hc
    simp only [jsonFuel, marshalVal, List.length_append, List.length_cons]
    omega
  | hobj kvs ihkvs =>
    intro hc
    simp only [canonicalV, Bool.and_eq_true] at hc
    have := membersFuel_le_aux kvs ihkvs hc.2
    simp only [jsonFuel, marshalVal, List.length_append, List.length_cons]
    omega

theorem isNumStart_props (c : Char) (hstart : isNumStart c = true) :
    isWsChar c = false ∧ ¬ c = '\x7b' ∧ ¬ c = '[' ∧ ¬ c = '"' ∧ ¬ c = 't' ∧
      ¬ c = 'f' ∧ ¬ c = 'n' ∧ ¬ c = ']' := by
  have hne : ∀ d : Char, isNumStart d = false → ¬ c = d := by
    intro d hd he
    rw [he] at hstart
    rw [hstart] at hd
    cases hd
  refine ⟨?_, hne _ (by decide), hne _ (by decide), hne _ (by decide),
    hne _ (by decide), hne _ (by decide), hne _ (by decide), hne _ (by decide)⟩
  cases hw : isWsChar c
  · rfl
  · exfalso
    have hw2 : ((c = ' ' ∨ c = '\t') ∨ c = '\n') ∨ c = '\r' := by
      simpa [isWsChar, Bool.or_eq_true, decide_eq_true_iff] using hw
    rcases hw2 with ((h | h) | h) | h <;> subst h <;>
      simp [isNumStart, Char.isDigit] at hstart

theorem marshalVal_head (v : Json) (hv : canonicalV v = true) :
    ∃ c cs, marshalVal v = c :: cs ∧ isWsChar c = false ∧ ¬ c = ']' := by
  cases v with
  | null => exact ⟨'n', _, rfl, by decide, by decide⟩
  | bool b =>
    cases b
    · exact ⟨'f', _, rfl, by decide, by decide⟩
    · exact ⟨'t', _, rfl, by decide, by decide⟩
  | num lit =>
    rcases hld : lit.data with _ | ⟨c, cs⟩
    · rw [canonicalV, numLitOk, hld] at hv; simp at hv
    · rw [canonicalV, numLitOk, hld] at hv
      simp only [Bool.and_eq_true] at hv
      have hp := isNumStart_props c hv.1
      exact ⟨c, cs, by rw [marshalVal, hld], hp.1, hp.2.2.2.2.2.2.2⟩
  | str s => exact ⟨'"', _, by rw [marshalVal, marshalStr, List.cons_append], by decide, by decide⟩
  | arr es => exact ⟨'[', _, rfl, by decide, by decide⟩
  | obj kvs => exact ⟨'\x7b', _, rfl, by decide, by decide⟩

theorem parse_marshal (fuel : Nat) :
    (∀ v rest, canonicalV v = true → jsonFuel v ≤ fuel → headNot isNumChar rest →
      parseVal fuel (marshalVal v ++ rest) = some (v, rest)) ∧
    (∀ kvs acc rest, kvs ≠ [] → canonicalMembers kvs = true → membersFuel kvs ≤ fuel →
      parseMembers fuel (marshalMembers kvs ++ '\x7d' :: rest) acc
        = some (Json.obj (acc.reverse ++ kvs), rest)) ∧
    (∀ es acc rest, es ≠ [] → canonicalList es = true → elemsFuel es ≤ fuel →
      parseElems fuel (marshalElems es ++ ']' :: rest) acc
        = some (Json.arr (acc.reverse ++ es), rest)) := by
  induction fuel using Nat.strong_induction_on with
  | _ fuel ih =>
    refine ⟨?_, ?_, ?_⟩
    · -- a single value
      intro v rest hcan hfuel hb
      cases fuel with
      | zero => exact absurd hfuel (by have := jsonFuel_pos v; omega)
      | succ f =>
      cases v with
      | null =>
        simp only [marshalVal, List.cons_append, List.nil_append]
        rw [parseVal.eq_2, skipWs_cons _ _ (by decide)]
        simp
      | bool b =>
        cases b
        · simp only [marshalVal, if_false, reduceIte, Bool.false_eq_true,
            List.cons_append, List.nil_append]
          rw [parseVal.eq_2, skipWs_cons _ _ (by decide)]
          simp
        · simp only [marshalVal, if_true, List.cons_append, List.nil_append]
          rw [parseVal.eq_2, skipWs_cons _ _ (by decide)]
          simp
      | num lit =>
        rcases hld : lit.data with _ | ⟨c, cs⟩
        · rw [canonicalV, numLitOk, hld] at hcan; simp at hcan
        · rw [canonicalV, numLitOk, hld] at hcan
          simp only [List.all_cons, Bool.and_eq_true] at hcan
          obtain ⟨hstart, hhead, hall⟩ := hcan
          obtain ⟨hws, hn1, hn2, hn3, hn4, hn5, hn6, hn7⟩ := isNumStart_props c hstart
          have htake := takeWhile_all_append hall hb
          rw [marshalVal, hld, List.cons_append, parseVal.eq_2,
            skipWs_cons c (cs ++ rest) hws]
          simp only [hn1, hn2, hn3, hn4, hn5, hn6, if_false, reduceIte, hstart, if_true]
          rw [htake.1, htake.2, ← hld]
      | str s =>
        rw [marshalVal, marshalStr]
        simp only [List.cons_append, List.append_assoc, List.singleton_append]
        rw [parseVal.eq_2, skipWs_cons _ _ (by decide)]
        simp [parseStr_marshal]
      | arr es =>
        rw [canonicalV] at hcan
        rw [marshalVal]
        simp only [List.cons_append, List.append_assoc, List.singleton_append]
        rw [parseVal.eq_2, skipWs_cons _ _ (by decide)]
        simp only [reduceIte]
        cases es with
        | nil =>
          rw [jsonFuel, elemsFuel] at hfuel
          cases f with
          | zero => omega
          | succ g =>
            rw [marshalElems]
            simp only [List.nil_append]
            rw [parseElems.eq_2, skipWs_cons _ _ (by decide)]
            simp
        | cons e es2 =>
          have hfe : elemsFuel (e :: es2) ≤ f := by rw [jsonFuel] at hfuel; omega
          have := (ih f (by omega)).2.2 (e :: es2) [] rest (by simp) hcan hfe
          simpa using this
      | obj kvs =>
        rw [canonicalV, Bool.and_eq_true] at hcan
        rw [marshalVal]
        simp only [List.cons_append, List.append_assoc, List.singleton_append]
        rw [parseVal.eq_2, skipWs_cons _ _ (by decide)]
        simp only [reduceIte]
        cases kvs with
        | nil =>
          rw [jsonFuel, membersFuel] at hfuel
          cases f with
          | zero => omega
          | succ g =>
            rw [marshalMembers]
            simp only [List.nil_append]
            rw [parseMembers.eq_2, skipWs_cons _ _ (by decide)]
            simp
        | cons kv kvs2 =>
          have hfm : membersFuel (kv :: kvs2) ≤ f := by rw [jsonFuel] at hfuel; omega
          have := (ih f (by omega)).2.1 (kv :: kvs2) [] rest (by simp) hcan.2 hfm
          simpa using this
    · -- a nonempty member list
      intro kvs acc rest hne hcan hfuel
      cases fuel with
      | zero => exact absurd hfuel (by have := membersFuel_pos kvs; omega)
      | succ f =>
      cases kvs with
      | nil => exact absurd rfl hne
      | cons kv kvs2 =>
      obtain ⟨k, v⟩ := kv
      simp only [canonicalMembers, Bool.and_eq_true] at hcan
      have hfv : jsonFuel v ≤ f ∧ membersFuel kvs2 ≤ f := by
        rw [membersFuel] at hfuel
        constructor <;>
          [have := Nat.le_max_left (jsonFuel v) (membersFuel kvs2);
           have := Nat.le_max_right (jsonFuel v) (membersFuel kvs2)] <;> omega
      rw [marshalMembers, marshalStr]
      simp only [List.cons_append, List.append_assoc, List.singleton_append, List.nil_append]
      rw [parseMembers.eq_2, skipWs_cons _ _ (by decide)]
      simp only [Char.reduceEq, reduceIte]
      rw [parseStr_marshal]
      simp only [List.nil_append]
      rw [skipWs_cons _ _ (by decide)]
      simp only []
      have hbnd : headNot isNumChar (marshalMembersRest kvs2 ++ '\x7d' :: rest) := by
        cases kvs2 with
        | nil =>
          simp only [marshalMembersRest, List.nil_append, headNot]
          decide
        | cons kv2 kvs3 =>
          obtain ⟨k2, v2⟩ := kv2
          simp only [marshalMembersRest, List.cons_append, headNot]
          decide
      rw [(ih f (by omega)).1 v (marshalMembersRest kvs2 ++ '\x7d' :: rest) hcan.1 hfv.1 hbnd]
      simp only []
      cases kvs2 with
      | nil =>
        rw [marshalMembersRest]
        simp only [List.nil_append]
        rw [skipWs_cons _ _ (by decide)]
        simp
      | cons kv2 kvs3 =>
        obtain ⟨k2, v2⟩ := kv2
        rw [marshalMembersRest]
        simp only [List.cons_append, List.append_assoc]
        rw [skipWs_cons _ _ (by decide)]
        simp only []
        have hmm : marshalStr k2 ++ ':' :: (marshalVal v2 ++ (marshalMembersRest kvs3 ++ '\x7d' :: rest))
            = marshalMembers ((k2, v2) :: kvs3) ++ '\x7d' :: rest := by
          rw [marshalMembers]
          simp [List.append_assoc]
        rw [hmm]
        rw [(ih f (by omega)).2.1 ((k2, v2) :: kvs3) ((k, v) :: acc) rest (by simp) hcan.2 hfv.2]
        simp
    · -- a nonempty element list
      intro es acc rest hne hcan hfuel
      cases fuel with
      | zero => exact absurd hfuel (by have := elemsFuel_pos es; omega)
      | succ f =>
      cases es with
      | nil => exact absurd rfl hne
      | cons e es2 =>
      simp only [canonicalList, Bool.and_eq_true] at hcan
      have hfv : jsonFuel e ≤ f ∧ elemsFuel es2 ≤ f := by
        rw [elemsFuel] at hfuel
        constructor <;>
          [have := Nat.le_max_left (jsonFuel e) (elemsFuel es2);
           have := Nat.le_max_right (jsonFuel e) (elemsFuel es2)] <;> omega
      obtain ⟨c, cs, hmv, hcw, hcne⟩ := marshalVal_head e hcan.1
      rw [marshalElems]
      simp only [List.append_assoc]
      rw [hmv, List.cons_append]
      rw [parseElems.eq_2, skipWs_cons c _ hcw]
      simp only [hcne, reduceIte, if_false]
      rw [← List.cons_append, ← hmv]
      have hbnd : headNot isNumChar (marshalElemsRest es2 ++ ']' :: rest) := by
        cases es2 with
        | nil =>
          simp only [marshalElemsRest, List.nil_append, headNot]
          decide
        | cons e2 es3 =>
          simp only [marshalElemsRest, List.cons_append, headNot]
          decide
      rw [(ih f (by omega)).1 e (marshalElemsRest es2 ++ ']' :: rest) hcan.1 hfv.1 hbnd]
      simp only []
      cases es2 with
      | nil =>
        rw [marshalElemsRest]
        simp only [List.nil_append]
        rw [skipWs_cons _ _ (by decide)]
        simp
      | cons e2 es3 =>
        rw [marshalElemsRest]
        simp only [List.cons_append, List.append_assoc]
        rw [skipWs_cons _ _ (by decide)]
        simp only []
        have hmm : marshalVal e2 ++ (marshalElemsRest es3 ++ ']' :: rest)
            = marshalElems (e2 :: es3) ++ ']' :: rest := by
          rw [marshalElems]
          simp [List.append_assoc]
        rw [hmm]
        rw [(ih f (by omega)).2.2 (e2 :: es3) (e :: acc) rest (by simp) hcan.2 hfv.2]
        simp

/-! ## Canonical values are fixed points of Go-map conversion -/

theorem canonEntries_id (l : List (String × Json)) (hs : keysSorted l = true)
    (hv : ∀ kv ∈ l, canon kv.2 = kv.2) : canonEntries l = l := by
  induction l with
  | nil => rfl
  | cons kv rest ih =>
    obtain ⟨k, v⟩ := kv
    have hsrest : keysSorted rest = true := by
      cases rest with
      | nil => rfl
      | cons kv2 t =>
        obtain ⟨k2, v2⟩ := kv2
        rw [keysSorted] at hs
        simp only [Bool.and_eq_true] at hs
        exact hs.2
    rw [canonEntries]
    have hvk : canon v = v := hv (k, v) (by simp)
    rw [hvk, ih hsrest (fun x hx => hv x (by simp [hx]))]
    cases rest with
    | nil => rfl
    | cons kv2 t =>
      obtain ⟨k2, v2⟩ := kv2
      rw [keysSorted] at hs
      simp only [Bool.and_eq_true] at hs
      rw [insertEntry, if_pos hs.1]

theorem canon_id : ∀ v, canonicalV v = true → canon v = v := by
  intro v
  induction v using Json.inductionOn with
  | hnull => intro _; rfl
  | hbool b => intro _; rfl
  | hnum l => intro _; rfl
  | hstr s => intro _; rfl
  | harr es ihes =>
    intro hc
    rw [canonicalV] at hc
    rw [canon]
    have key : ∀ (l : List Json), (∀ e ∈ l, canonicalV e = true → canon e = e) →
        canonicalList l = true → canonList l = l := by
      intro l
      induction l with
      | nil => intro _ _; rfl
      | cons e t iht =>
        intro hmem hcl
        simp only [canonicalList, Bool.and_eq_true] at hcl
        rw [canonList, hmem e (by simp) hcl.1,
          iht (fun x hx => hmem x (by simp [hx])) hcl.2]
    rw [key es ihes hc]
  | hobj kvs ihkvs =>
    intro hc
    rw [canonicalV, Bool.and_eq_true] at hc
    rw [canon]
    have key : ∀ (l : List (String × Json)),
        (∀ kv ∈ l, canonicalV kv.2 = true → canon kv.2 = kv.2) →
        canonicalMembers l = true → ∀ kv ∈ l, canon kv.2 = kv.2 := by
      intro l hmem hcl kv hkv
      refine hmem kv hkv ?_
      clear hmem
      induction l with
      | nil => cases hkv
      | cons x t iht =>
        obtain ⟨xk, xv⟩ := x
        simp only [canonicalMembers, Bool.and_eq_true] at hcl
        rcases List.mem_cons.mp hkv with h | h
        · subst h; exact hcl.1
        · exact iht hcl.2 h
    rw [canonEntries_id kvs hc.1 (key kvs ihkvs hc.2)]

/-! ## The Argument Normalizer on canonical serializations -/

theorem trimSpace_of_ends (a b : Char) (mid : List Char)
    (ha : isSpaceGo a = false) (hb : isSpaceGo b = false) :
    trimSpace (String.mk (a :: mid ++ [b])) = String.mk (a :: mid ++ [b]) := by
  rw [trimSpace]
  have hdata : (String.mk (a :: mid ++ [b])).data = a :: mid ++ [b] := rfl
  rw [hdata]
  refine congrArg String.mk ?_
  rw [List.cons_append, List.dropWhile_cons]
  simp only [ha, Bool.false_eq_true, if_false, reduceIte]
  rw [show a :: (mid ++ [b]) = (a :: mid) ++ [b] from rfl]
  rw [List.reverse_append]
  simp only [List.reverse_cons, List.reverse_nil, List.nil_append, List.singleton_append]
  rw [List.dropWhile_cons]
  simp only [hb, Bool.false_eq_true, if_false, reduceIte]
  simp

theorem unmarshalObject_marshal (m : List (String × Json))
    (hm : canonicalV (Json.obj m) = true) :
    unmarshalObject (String.mk (marshalVal (Json.obj m))) = some m := by
  rw [unmarshalObject]
  have hb : headNot isNumChar ([] : List Char) := trivial
  have hfuel : jsonFuel (Json.obj m) ≤ (marshalVal (Json.obj m)).length + 1 :=
    jsonFuel_le_marshal _ hm
  have hparse := (parse_marshal ((marshalVal (Json.obj m)).length + 1)).1
    (Json.obj m) [] hm hfuel hb
  rw [List.append_nil] at hparse
  have hdata : (String.mk (marshalVal (Json.obj m))).data = marshalVal (Json.obj m) := rfl
  rw [hdata, hparse]
  have hcanon : canonEntries m = m := by
    have := canon_id (Json.obj m) hm
    rw [canon] at this
    exact (Json.obj.injEq _ _).mp this
  simp [skipWs, hcanon]

theorem marshal_obj_shape (m : List (String × Json)) :
    marshalVal (Json.obj m) = '\x7b' :: marshalMembers m ++ ['\x7d'] := rfl

theorem trimSpace_marshal_obj (m : List (String × Json)) :
    trimSpace (String.mk (marshalVal (Json.obj m))) = String.mk (marshalVal (Json.obj m)) := by
  rw [marshal_obj_shape]
  exact trimSpace_of_ends _ _ _ (by decide) (by decide)

theorem marshal_obj_ne_empty (m : List (String × Json)) :
    String.mk (marshalVal (Json.obj m)) ≠ "" := by
  rw [marshal_obj_shape]
  intro h
  have : '\x7b' :: marshalMembers m ++ ['\x7d'] = [] := congrArg String.data h
  simp at this

theorem normalizeToolInput_marshal_obj (m : List (String × Json))
    (hm : canonicalV (Json.obj m) = true)
    (hnostr : ∀ v, lookupEntry "__arg1" m ≠ some (Json.str v)) :
    normalizeToolInput (String.mk (marshalVal (Json.obj m)))
      = String.mk (marshalVal (Json.obj m)) := by
  rw [normalizeToolInput]
  simp only [trimSpace_marshal_obj]
  rw [if_neg (marshal_obj_ne_empty m)]
  rw [unmarshalObject_marshal m hm]
  cases hl : lookupEntry "__arg1" m with
  | none => simp [hl]
  | some j =>
    cases j with
    | str v => exact absurd hl (hnostr v)
    | null => simp [hl]
    | bool b => simp [hl]
    | num l => simp [hl]
    | arr es => simp [hl]
    | obj kvs => simp [hl]

/-! ## Claims about the Argument Normalizer -/

/-- Claim C6, amended: for every argument string whose trimmed text parses as
a JSON object, if the parsed object contains the key `__arg1` (not necessarily
as its only key) and that key's value is a JSON string, `normalizeToolInput`
returns that string value directly; otherwise (no `__arg1`, or a non-string
value under it) it returns the object re-serialized to canonical JSON with
stable key order. -/
theorem claim_C6 (s : String) (m : List (String × Json))
    (hm : unmarshalObject (trimSpace s) = some m) :
    (∀ v, lookupEntry "__arg1" m = some (Json.str v) → normalizeToolInput s = v) ∧
    ((∀ v, lookupEntry "__arg1" m ≠ some (Json.str v)) →
      normalizeToolInput s = String.mk (marshalVal (Json.obj m))) := by
  have hne : trimSpace s ≠ "" := by
    intro h
    rw [h] at hm
    have hnone : unmarshalObject "" = none := rfl
    rw [hnone] at hm
    cases hm
  constructor
  · intro v hv
    rw [normalizeToolInput]
    simp only [hne, if_false, reduceIte, hm, hv]
  · intro hv
    rw [normalizeToolInput]
    simp only [hne, if_false, reduceIte, hm]

/-- Witness for C6 at concrete inputs: a string-valued `__arg1` is unwrapped,
and an object without a string-valued `__arg1` is canonically re-serialized. -/
theorem claim_C6_witness :
    normalizeToolInput "\x7b\"__arg1\":\"hi\"\x7d" = "hi" ∧
    normalizeToolInput "\x7b\"b\":\"y\",\"a\":\"x\"\x7d" = "\x7b\"a\":\"x\",\"b\":\"y\"\x7d" := by
  constructor
  · exact (claim_C6 "\x7b\"__arg1\":\"hi\"\x7d" [("__arg1", Json.str "hi")] rfl).1 "hi" rfl
  · exact (claim_C6 "\x7b\"b\":\"y\",\"a\":\"x\"\x7d"
      [("a", Json.str "x"), ("b", Json.str "y")] rfl).2
      (by intro v hv; cases hv)

/-- Counterexample to claim C6 as stated: the code unwraps `__arg1` even when
the object has other keys besides it (the claim demands re-serialization
unless `__arg1` is the only key), and it does not return the "string form" of
a non-string `__arg1` value (it re-serializes instead). -/
theorem claim_C6_counterexample :
    normalizeToolInput "\x7b\"b\":\"y\",\"__arg1\":\"x\"\x7d" = "x" ∧
    "x" ≠ "\x7b\"__arg1\":\"x\",\"b\":\"y\"\x7d" ∧
    normalizeToolInput "\x7b\"__arg1\":true\x7d" = "\x7b\"__arg1\":true\x7d" ∧
    "\x7b\"__arg1\":true\x7d" ≠ "true" := by
  exact ⟨rfl, by decide, rfl, by decide⟩

/-- Claim C7: `normalizeToolInput` is total and never fails: an input that
trims to the empty string yields the empty string, and an input whose trimmed
text does not parse as a JSON object is returned as the trimmed raw string
unchanged. (The embedding is a total function, so no input raises an error.) -/
theorem claim_C7 (s : String) :
    (trimSpace s = "" → normalizeToolInput s = "") ∧
    (unmarshalObject (trimSpace s) = none → normalizeToolInput s = trimSpace s) := by
  constructor
  · intro h
    rw [normalizeToolInput]
    simp only [h, if_true, reduceIte]
  · intro h
    rw [normalizeToolInput]
    by_cases he : trimSpace s = ""
    · simp only [he, if_true, reduceIte]
    · simp only [he, if_false, reduceIte, h]

/-- Witness for C7 at concrete inputs: whitespace trims to empty output, and
non-JSON text passes through trimmed. -/
theorem claim_C7_witness :
    normalizeToolInput "   " = "" ∧
    normalizeToolInput " not json " = "not json" := by
  constructor
  · exact (claim_C7 "   ").1 rfl
  · exact (claim_C7 " not json ").2 rfl

/-- Claim C8: normalization is idempotent on canonical serializations: for an
object in Go-map form (sorted duplicate-free keys, well-formed literals)
without the key `__arg1`, normalizing its canonical serialization twice gives
the same string as normalizing it once. -/
theorem claim_C8 (m : List (String × Json))
    (hm : canonicalV (Json.obj m) = true)
    (hno : lookupEntry "__arg1" m = none) :
    normalizeToolInput (normalizeToolInput (String.mk (marshalVal (Json.obj m))))
      = normalizeToolInput (String.mk (marshalVal (Json.obj m))) := by
  have hfix := normalizeToolInput_marshal_obj m hm
    (fun v hv => by rw [hno] at hv; cases hv)
  simp only [hfix]

/-- Witness for C8 at a concrete canonical object without `__arg1`. -/
theorem claim_C8_witness :
    normalizeToolInput (normalizeToolInput
        (String.mk (marshalVal (Json.obj [("a", Json.str "b")]))))
      = normalizeToolInput (String.mk (marshalVal (Json.obj [("a", Json.str "b")]))) :=
  claim_C8 [("a", Json.str "b")] rfl rfl

/-! ## Agent data model (langchaingo schema types as used by the agent) -/

/-- `schema.AgentAction`. -/
structure AgentAction where
  tool : String
  toolInput : String
  log : String
  toolID : String
deriving DecidableEq, Repr, Inhabited

/-- `schema.AgentStep`. -/
structure AgentStep where
  action : AgentAction
  observation : String
deriving DecidableEq, Repr, Inhabited

/-- `llms.FunctionCall`. -/
structure FunctionCall where
  name : String
  arguments : String
deriving DecidableEq, Repr, Inhabited

/-- `llms.ToolCall` (`typ` is the Go `Type` field). -/
structure ToolCall where
  id : String
  typ : String
  functionCall : FunctionCall
deriving DecidableEq, Repr, Inhabited

/-- The two message shapes `constructScratchPad` produces:
`llms.AIChatMessage` (content plus tool calls) and `llms.ToolChatMessage`
(tool-call id plus observation content). -/
inductive ChatMessage where
  | ai (content : String) (toolCalls : List ToolCall) : ChatMessage
  | tool (id : String) (content : String) : ChatMessage
deriving DecidableEq, Repr

/-! ## Scratchpad Builder -/

/-- One `llms.ToolCall` built from a step's action, as in the loop body of
`constructScratchPad`. -/
def toolCallOfStep (s : AgentStep) : ToolCall :=
  { id := s.action.toolID, typ := "function",
    functionCall := { name := s.action.tool, arguments := s.action.toolInput } }

/-- Flush of the pending batch: the AI message carrying the accumulated tool
calls followed by one tool message per step of the batch. The Go code reads
those steps back by index (`steps[i-len(currentToolCalls) .. i-1]`); the
accumulated batch holds exactly those steps. -/
def flushBatch (messages : List ChatMessage) (currentLog : String)
    (currentBatch : List AgentStep) : List ChatMessage :=
  if currentBatch.length > 0 then
    messages ++ [ChatMessage.ai currentLog (currentBatch.map toolCallOfStep)]
      ++ currentBatch.map (fun s => ChatMessage.tool s.action.toolID s.observation)
  else messages

/-- The loop of `constructScratchPad` with explicit state: `prev` is
`steps[i-1]` (`none` when `i = 0`), `currentBatch` the steps whose tool calls
sit in `currentToolCalls`, `currentLog` the batch's log. -/
def scratchLoop (messages : List ChatMessage) (currentBatch : List AgentStep)
    (currentLog : String) (prev : Option AgentStep) :
    List AgentStep → List ChatMessage
  | [] => flushBatch messages currentLog currentBatch
  | step :: rest =>
    if prev.all (fun p => p.action.log != step.action.log) then
      scratchLoop (flushBatch messages currentLog currentBatch) [step]
        step.action.log (some step) rest
    else
      scratchLoop messages (currentBatch ++ [step]) currentLog (some step) rest

/-- `constructScratchPad` from the agent package. -/
def constructScratchPad (steps : List AgentStep) : List ChatMessage :=
  if steps.length = 0 then []
  else scratchLoop [] [] "" none steps

/-- Follows the spec's words (4.3): grouping of consecutive steps into a
maximal run sharing one action log, carrying the current run and its log. -/
def chunkAux (cur : List AgentStep) (log : String) :
    List AgentStep → List (List AgentStep)
  | [] => [cur]
  | s :: rest =>
    if s.action.log = log then chunkAux (cur ++ [s]) log rest
    else cur :: chunkAux [s] s.action.log rest

/-- Follows the spec's words (4.3): batches are maximal runs of consecutive
steps with equal action logs, in original order. -/
def chunkByLog : List AgentStep → List (List AgentStep)
  | [] => []
  | s :: rest => chunkAux [s] s.action.log rest

/-- Follows the spec's words (4.3): per batch, one AI message carrying one
ToolCall per action in original order, then one ToolResult message per step
in the same order, keyed by its action's call id. -/
def renderBatch (b : List AgentStep) : List ChatMessage :=
  ChatMessage.ai ((b.headD default).action.log) (b.map toolCallOfStep)
    :: b.map (fun s => ChatMessage.tool s.action.toolID s.observation)

/-- Follows the spec's words (4.3): the whole scratchpad, batch by batch. -/
def scratchPadSpec (steps : List AgentStep) : List ChatMessage :=
  (chunkByLog steps).flatMap renderBatch

/-- ToolCall ids carried by AI messages, in order. -/
def msgToolCallIDs : ChatMessage → List String
  | .ai _ tcs => tcs.map (fun tc => tc.id)
  | .tool _ _ => []

/-- Ids carried by ToolResult messages, in order. -/
def msgToolResultIDs : ChatMessage → List String
  | .ai _ _ => []
  | .tool id _ => [id]

/-- All ToolCall ids of a scratchpad, in order. -/
def scratchToolCallIDs (msgs : List ChatMessage) : List String :=
  msgs.flatMap msgToolCallIDs

/-- All ToolResult ids of a scratchpad, in order. -/
def scratchToolResultIDs (msgs : List ChatMessage) : List String :=
  msgs.flatMap msgToolResultIDs

theorem flushBatch_nonempty (messages : List ChatMessage) (log : String)
    (cur : List AgentStep) (hne : cur ≠ [])
    (hlog : ∀ s ∈ cur, s.action.log = log) :
    flushBatch messages log cur = messages ++ renderBatch cur := by
  rw [flushBatch, if_pos (by cases cur with | nil => exact absurd rfl hne | cons a t => simp)]
  rw [renderBatch]
  have hhead : (cur.headD default).action.log = log := by
    cases cur with
    | nil => exact absurd rfl hne
    | cons a t => exact hlog a (by simp)
  rw [hhead]
  simp

theorem scratchLoop_eq (rest : List AgentStep) :
    ∀ (messages : List ChatMessage) (cur : List AgentStep) (log : String)
      (p : AgentStep), cur ≠ [] → (∀ s ∈ cur, s.action.log = log) →
      p.action.log = log →
      scratchLoop messages cur log (some p) rest
        = messages ++ (chunkAux cur log rest).flatMap renderBatch := by
  induction rest with
  | nil =>
    intro messages cur log p hne hlog hp
    rw [scratchLoop, chunkAux]
    simp [flushBatch_nonempty messages log cur hne hlog]
  | cons s rest ih =>
    intro messages cur log p hne hlog hp
    rw [scratchLoop, chunkAux]
    by_cases hs : s.action.log = log
    · have hcond : (some p).all (fun q => q.action.log != s.action.log) = false := by
        simp [Option.all, hp, hs]
      rw [hcond]
      simp only [Bool.false_eq_true, if_false, reduceIte, hs, if_true]
      exact ih messages (cur ++ [s]) log s (by simp)
        (by intro x hx; rcases List.mem_append.mp hx with h | h
            · exact hlog x h
            · simp at h; rw [h]; exact hs) hs
    · have hcond : (some p).all (fun q => q.action.log != s.action.log) = true := by
        simp [Option.all, hp]
        intro he
        exact absurd he.symm hs
      rw [hcond]
      simp only [if_true, reduceIte, hs, if_false]
      rw [ih (flushBatch messages log cur) [s] s.action.log s (by simp) (by simp) rfl]
      rw [flushBatch_nonempty messages log cur hne hlog]
      simp

theorem constructScratchPad_eq_spec (steps : List AgentStep) :
    constructScratchPad steps = scratchPadSpec steps := by
  cases steps with
  | nil => rfl
  | cons s rest =>
    rw [constructScratchPad, if_neg (by simp), scratchLoop]
    have hcond : (none : Option AgentStep).all (fun q => q.action.log != s.action.log) = true := rfl
    rw [hcond]
    simp only [if_true, reduceIte]
    rw [show flushBatch [] "" [] = [] from rfl]
    rw [scratchLoop_eq rest [] [s] s.action.log s (by simp) (by simp) rfl]
    rfl

theorem chunkAux_flatten (rest : List AgentStep) :
    ∀ cur log, (chunkAux cur log rest).flatten = cur ++ rest := by
  induction rest with
  | nil => intro cur log; simp [chunkAux]
  | cons s t ih =>
    intro cur log
    rw [chunkAux]
    by_cases hs : s.action.log = log
    · rw [if_pos hs, ih]
      simp
    · rw [if_neg hs]
      simp only [List.flatten_cons, ih]
      simp

theorem flatMap_nil_fun (l : List AgentStep) :
    (l.flatMap fun _ => ([] : List String)) = [] := by
  induction l <;> simp_all

theorem flatMap_single_fun (l : List AgentStep) :
    (l.flatMap fun a => [a.action.toolID]) = l.map (fun s => s.action.toolID) := by
  induction l <;> simp_all

theorem scratchToolCallIDs_renderBatches (chunks : List (List AgentStep)) :
    scratchToolCallIDs (chunks.flatMap renderBatch)
      = chunks.flatten.map (fun s => s.action.toolID) := by
  induction chunks with
  | nil => rfl
  | cons b t ih =>
    simp only [List.flatMap_cons, List.flatten_cons, List.map_append,
      scratchToolCallIDs, List.flatMap_append] at ih ⊢
    rw [ih]
    congr 1
    simp [renderBatch, msgToolCallIDs, toolCallOfStep, List.flatMap_cons,
      List.flatMap_map, Function.comp, flatMap_nil_fun]

theorem scratchToolResultIDs_renderBatches (chunks : List (List AgentStep)) :
    scratchToolResultIDs (chunks.flatMap renderBatch)
      = chunks.flatten.map (fun s => s.action.toolID) := by
  induction chunks with
  | nil => rfl
  | cons b t ih =>
    simp only [List.flatMap_cons, List.flatten_cons, List.map_append,
      scratchToolResultIDs, List.flatMap_append] at ih ⊢
    rw [ih]
    congr 1
    simp [renderBatch, msgToolResultIDs, List.flatMap_cons, List.flatMap_map,
      Function.comp, flatMap_single_fun]

theorem chunkByLog_flatten (steps : List AgentStep) :
    (chunkByLog steps).flatten = steps := by
  cases steps with
  | nil => rfl
  | cons s rest => rw [chunkByLog, chunkAux_flatten]; rfl

/-! ## Claim C1 -/

/-- Claim C1: over any step sequence the scratchpad is exactly the spec's
batch-by-batch rendering — per maximal run of equal action logs, one AI
message with one ToolCall per step in original order followed by one
ToolResult per step in the same order keyed by that step's call id — with
batches in original order; the call-id list and the ToolResult-id list both
equal the step-id list, so under the spec's per-turn unique-call-id
invariant every ToolCall id appears exactly once and is matched by exactly
one ToolResult with the same id. -/
theorem claim_C1 (steps : List AgentStep) :
    constructScratchPad steps = scratchPadSpec steps ∧
    scratchToolCallIDs (constructScratchPad steps)
      = steps.map (fun s => s.action.toolID) ∧
    scratchToolResultIDs (constructScratchPad steps)
      = steps.map (fun s => s.action.toolID) ∧
    ((steps.map (fun s => s.action.toolID)).Nodup →
      (scratchToolCallIDs (constructScratchPad steps)).Nodup) := by
  have heq := constructScratchPad_eq_spec steps
  have hcall : scratchToolCallIDs (constructScratchPad steps)
      = steps.map (fun s => s.action.toolID) := by
    rw [heq, scratchPadSpec, scratchToolCallIDs_renderBatches, chunkByLog_flatten]
  have hres : scratchToolResultIDs (constructScratchPad steps)
      = steps.map (fun s => s.action.toolID) := by
    rw [heq, scratchPadSpec, scratchToolResultIDs_renderBatches, chunkByLog_flatten]
  exact ⟨heq, hcall, hres, fun hids => hcall ▸ hids⟩

/-- Concrete steps: two planning rounds (log "L1" twice, then log "L2"). -/
def demoSteps : List AgentStep :=
  [{ action := { tool := "calc", toolInput := "1+1", log := "L1", toolID := "id1" },
     observation := "2" },
   { action := { tool := "cal", toolInput := "list", log := "L1", toolID := "id2" },
     observation := "events" },
   { action := { tool := "notes", toolInput := "a.md", log := "L2", toolID := "id3" },
     observation := "text" }]

/-- Witness for C1 on a concrete three-step, two-batch sequence. -/
theorem claim_C1_witness :
    constructScratchPad demoSteps = scratchPadSpec demoSteps ∧
    (scratchToolCallIDs (constructScratchPad demoSteps)).Nodup :=
  ⟨(claim_C1 demoSteps).1, (claim_C1 demoSteps).2.2.2 (by decide)⟩

/-! ## Planner response parsing -/

/-- `llms.ContentChoice`: free text, structured tool calls, and the legacy
single function call. -/
structure ContentChoice where
  content : String
  toolCalls : List ToolCall
  funcCall : Option FunctionCall
deriving DecidableEq, Repr, Inhabited

/-- `llms.ContentResponse`. -/
structure ContentResponse where
  choices : List ContentChoice
deriving DecidableEq, Repr, Inhabited

/-- `schema.AgentFinish`: the Go value holds `ReturnValues` with key
`output` mapped to the choice content, and `Log` set to the same content. -/
structure AgentFinish where
  output : String
  log : String
deriving DecidableEq, Repr, Inhabited

/-- Result of `ParseOutput`: Go returns `([]AgentAction, *AgentFinish, error)`
with at most one of the error and the payload set. -/
inductive ParseResult where
  | error (msg : String) : ParseResult
  | ok (actions : List AgentAction) (finish : Option AgentFinish) : ParseResult
deriving DecidableEq, Repr

/-- Whether a parse result is the error case. -/
def parseIsError : ParseResult → Bool
  | .error _ => true
  | .ok _ _ => false

/-- The ` responded: ...` suffix added when the choice carries free text. -/
def contentMsgOf (content : String) : String :=
  if content ≠ "" then " responded: " ++ content else ""

/-- The log line `fmt.Sprintf("Invoking: %s with %s%s", name, normalized,
contentMsg)`. -/
def invokeLog (functionName normalized contentMsg : String) : String :=
  "Invoking: " ++ functionName ++ " with " ++ normalized ++ contentMsg

/-- `ParseOutput` from the agent package; the argument is `none` for a nil
`*llms.ContentResponse`. -/
def ParseOutput (contentResp : Option ContentResponse) : ParseResult :=
  match contentResp with
  | none => .error "no choices in response"
  | some resp =>
    if resp.choices.length = 0 then .error "no choices in response"
    else
      let choice := resp.choices.headD default
      if choice.toolCalls.length > 0 then
        .ok (choice.toolCalls.map (fun toolCall =>
          { tool := toolCall.functionCall.name
            toolInput := normalizeToolInput toolCall.functionCall.arguments
            log := invokeLog toolCall.functionCall.name
              (normalizeToolInput toolCall.functionCall.arguments)
              (contentMsgOf choice.content)
            toolID := toolCall.id })) none
      else
        match choice.funcCall with
        | some functionCall =>
          .ok [{ tool := functionCall.name
                 toolInput := normalizeToolInput functionCall.arguments
                 log := invokeLog functionCall.name
                   (normalizeToolInput functionCall.arguments)
                   (contentMsgOf choice.content)
                 toolID := "" }] none
        | none =>
          .ok [] (some { output := choice.content, log := choice.content })

/-- Outcome of the fragment of `Plan` after the model call: Go may panic
(slice index out of range), return the generation error, or defer to
`ParseOutput`. -/
inductive PlanOutcome where
  | panic (msg : String) : PlanOutcome
  | error (msg : String) : PlanOutcome
  | ok (actions : List AgentAction) (finish : Option AgentFinish) : PlanOutcome
deriving DecidableEq, Repr

/-- The error check and parse that follow the debug print in `Plan`. -/
def planTail (result : Option ContentResponse) (genErr : Option String) :
    PlanOutcome :=
  match genErr with
  | some e => .error e
  | none =>
    match ParseOutput result with
    | .error msg => .error msg
    | .ok actions finish => .ok actions finish

/-- The tail of `Plan` after `o.LLM.GenerateContent` returns
`(result, err)`: the debug print dereferences `result.Choices[0]` whenever
`result` is non-nil — before the error check and before `ParseOutput`'s own
guard — which panics when the choice list is empty. -/
def planAfterGenerate (result : Option ContentResponse)
    (genErr : Option String) : PlanOutcome :=
  match result with
  | some r =>
    if r.choices.length = 0 then .panic "index out of range"
    else planTail result genErr
  | none => planTail result genErr

/-! ## Claims C2, C4, C5 -/

/-- Claim C2, amended: on a response with at least one choice, `ParseOutput`
yields exactly one of a non-empty action list or a finish — never both,
never neither, and never an error; in particular a response carrying no tool
calls and no finish text yields an `AgentFinish` with empty output rather
than an error. -/
theorem claim_C2 (resp : ContentResponse) (h : resp.choices ≠ []) :
    ∃ actions finish, ParseOutput (some resp) = .ok actions finish ∧
      ((actions ≠ [] ∧ finish = none) ∨ (actions = [] ∧ ∃ f, finish = some f)) := by
  rw [ParseOutput]
  rw [if_neg (by simpa using h)]
  set choice := resp.choices.headD default with hch
  by_cases ht : choice.toolCalls.length > 0
  · rw [if_pos ht]
    refine ⟨_, none, rfl, Or.inl ⟨?_, rfl⟩⟩
    cases htc : choice.toolCalls with
    | nil => rw [htc] at ht; simp at ht
    | cons tc rest => simp [htc]
  · rw [if_neg ht]
    cases hfc : choice.funcCall with
    | some functionCall => exact ⟨_, none, rfl, Or.inl ⟨by simp, rfl⟩⟩
    | none => exact ⟨[], _, rfl, Or.inr ⟨rfl, _, rfl⟩⟩

/-- Witness for C2 on a response with one text-only choice. -/
theorem claim_C2_witness :
    ∃ actions finish,
      ParseOutput (some ⟨[⟨"4", [], none⟩]⟩) = .ok actions finish ∧
      ((actions ≠ [] ∧ finish = none) ∨ (actions = [] ∧ ∃ f, finish = some f)) :=
  claim_C2 ⟨[⟨"4", [], none⟩]⟩ (by simp)

/-- Counterexample to claim C2 as stated: a response whose single choice has
no tool calls and empty content is parsed as a finish with empty output, not
as a Planner error. -/
theorem claim_C2_counterexample :
    ParseOutput (some ⟨[⟨"", [], none⟩]⟩)
      = ParseResult.ok [] (some ⟨"", ""⟩) ∧
    parseIsError (ParseOutput (some ⟨[⟨"", [], none⟩]⟩)) = false :=
  ⟨rfl, rfl⟩

/-- Claim C4 names a real code bug: `Plan` evaluates `result.Choices[0]` in
a debug print before any guard, so a non-nil response with zero choices
panics with an index-out-of-range instead of returning the "no choices in
response" error that `ParseOutput` itself would produce (and does produce,
as the second conjunct shows, when the print is skipped). A nil response is
handled safely. -/
theorem claim_C4_bug :
    planAfterGenerate (some ⟨[]⟩) none = PlanOutcome.panic "index out of range" ∧
    ParseOutput (some ⟨[]⟩) = ParseResult.error "no choices in response" ∧
    planAfterGenerate none none = PlanOutcome.error "no choices in response" :=
  ⟨rfl, rfl, rfl⟩

/-- Claim C5, amended: for a response whose first choice carries tool calls,
`ParseOutput` emits one action per call whose log is
`Invoking: <that call's name> with <that call's normalized input>` plus
` responded: <free text>` exactly when the choice carries free text; the
actions' logs therefore agree in the free-text suffix but are byte-identical
only when their names and normalized inputs also coincide. -/
theorem claim_C5 (resp : ContentResponse) (choice : ContentChoice)
    (restChoices : List ContentChoice)
    (hch : resp.choices = choice :: restChoices)
    (ht : choice.toolCalls ≠ []) :
    ParseOutput (some resp) = .ok (choice.toolCalls.map (fun toolCall =>
      { tool := toolCall.functionCall.name
        toolInput := normalizeToolInput toolCall.functionCall.arguments
        log := invokeLog toolCall.functionCall.name
          (normalizeToolInput toolCall.functionCall.arguments)
          (if choice.content ≠ "" then " responded: " ++ choice.content else "")
        toolID := toolCall.id })) none := by
  rw [ParseOutput]
  rw [if_neg (by simp [hch])]
  have hhd : resp.choices.headD default = choice := by rw [hch]; rfl
  rw [hhd]
  rw [if_pos (by cases htc : choice.toolCalls with
    | nil => exact absurd htc ht
    | cons tc rest => simp [htc])]
  rfl

/-- Witness for C5 on a concrete single-call response with free text. -/
theorem claim_C5_witness :
    ParseOutput (some ⟨[⟨"done", [⟨"7", "function", ⟨"calc", "2+2"⟩⟩], none⟩]⟩)
      = ParseResult.ok
          [⟨"calc", "2+2", "Invoking: calc with 2+2 responded: done", "7"⟩]
          none := by
  have h := claim_C5 ⟨[⟨"done", [⟨"7", "function", ⟨"calc", "2+2"⟩⟩], none⟩]⟩
    ⟨"done", [⟨"7", "function", ⟨"calc", "2+2"⟩⟩], none⟩ [] rfl (by simp)
  exact h

/-- Counterexample to claim C5 as stated: one response carrying two tool
calls with different names and inputs produces two actions whose log strings
differ, so the actions of a single response are not byte-identical. -/
theorem claim_C5_counterexample :
    ParseOutput (some ⟨[⟨"", [⟨"1", "function", ⟨"A", "x"⟩⟩,
        ⟨"2", "function", ⟨"B", "y"⟩⟩], none⟩]⟩)
      = ParseResult.ok
          [⟨"A", "x", "Invoking: A with x", "1"⟩,
           ⟨"B", "y", "Invoking: B with y", "2"⟩] none ∧
    ("Invoking: A with x" : String) ≠ "Invoking: B with y" :=
  ⟨rfl, by decide⟩

/-! ## Execution Loop

Modelled from the spec: the Execution Loop is `agents.Executor` from the
langchaingo dependency, configured by this repository's `NewAgent` with
`agents.WithMaxIterations`; only its construction sites are in the
repository.  Spec §4.5: each Planning transition invokes the Planner on the
current step list; a finish ends the turn; actions are dispatched in order,
each producing an observation step (tool-not-found and tool errors are
observations, not failures); after dispatching the batch the iteration count
increments, and exceeding `maxIterations` fails the turn with
MaxIterationsExceeded; a Planner error fails the turn directly. -/

/-- One Planner outcome, per spec §4.4/§4.5. -/
inductive PlanStep where
  | finish (output : String) : PlanStep
  | actions (acts : List AgentAction) : PlanStep
  | perror (msg : String) : PlanStep
deriving DecidableEq, Repr

/-- Fatal loop errors, per spec §7. -/
inductive RunError where
  | maxIterationsExceeded : RunError
  | plannerError (msg : String) : RunError
deriving DecidableEq, Repr

/-- Terminal state of one turn. -/
inductive RunResult where
  | finished (output : String) (trace : List AgentStep) : RunResult
  | failed (err : RunError) (trace : List AgentStep) : RunResult
deriving DecidableEq, Repr

/-- Modelled from the spec (§4.5): the loop with `remaining` iterations left
before the cap, returning the result and the number of planning calls made. -/
def runAux (plan : List AgentStep → PlanStep) (dispatch : AgentAction → String) :
    Nat → List AgentStep → RunResult × Nat
  | remaining, steps =>
    match plan steps with
    | .perror e => (.failed (.plannerError e) steps, 1)
    | .finish out => (.finished out steps, 1)
    | .actions acts =>
      match remaining with
      | 0 =>
        (.failed .maxIterationsExceeded
          (steps ++ acts.map (fun a => ⟨a, dispatch a⟩)), 1)
      | r + 1 =>
        ((runAux plan dispatch r (steps ++ acts.map (fun a => ⟨a, dispatch a⟩))).1,
         (runAux plan dispatch r (steps ++ acts.map (fun a => ⟨a, dispatch a⟩))).2 + 1)

/-- Modelled from the spec (§4.5): one turn with iteration cap
`maxIterations`, starting from the empty step list. -/
def run (plan : List AgentStep → PlanStep) (dispatch : AgentAction → String)
    (maxIterations : Nat) : RunResult × Nat :=
  runAux plan dispatch maxIterations []

theorem runAux_props (plan : List AgentStep → PlanStep)
    (dispatch : AgentAction → String) :
    ∀ (remaining : Nat) (steps : List AgentStep),
      (runAux plan dispatch remaining steps).2 ≤ remaining + 1 ∧
      ((∃ out tr, (runAux plan dispatch remaining steps).1 = .finished out tr) ∨
       (∃ tr, (runAux plan dispatch remaining steps).1
          = .failed .maxIterationsExceeded tr) ∨
       (∃ e tr, (runAux plan dispatch remaining steps).1
          = .failed (.plannerError e) tr)) ∧
      ((∀ s e, plan s ≠ .perror e) →
        ((∃ out tr, (runAux plan dispatch remaining steps).1 = .finished out tr) ∨
         (∃ tr, (runAux plan dispatch remaining steps).1
            = .failed .maxIterationsExceeded tr))) := by
  intro remaining
  induction remaining with
  | zero =>
    intro steps
    rw [runAux]
    cases hp : plan steps with
    | perror e =>
      exact ⟨by simp, Or.inr (Or.inr ⟨e, steps, rfl⟩),
        fun hplan => absurd hp (hplan steps e)⟩
    | finish out =>
      exact ⟨by simp, Or.inl ⟨out, steps, rfl⟩, fun _ => Or.inl ⟨out, steps, rfl⟩⟩
    | actions acts =>
      exact ⟨by simp, Or.inr (Or.inl ⟨_, rfl⟩), fun _ => Or.inr ⟨_, rfl⟩⟩
  | succ r ih =>
    intro steps
    rw [runAux]
    cases hp : plan steps with
    | perror e =>
      exact ⟨by simp, Or.inr (Or.inr ⟨e, steps, rfl⟩),
        fun hplan => absurd hp (hplan steps e)⟩
    | finish out =>
      exact ⟨by simp, Or.inl ⟨out, steps, rfl⟩, fun _ => Or.inl ⟨out, steps, rfl⟩⟩
    | actions acts =>
      have h := ih (steps ++ acts.map (fun a => ⟨a, dispatch a⟩))
      exact ⟨by simp only []; omega, h.2.1, h.2.2⟩

/-- Claim C3: for every `maxIterations = n` and every Planner, one run of
the Execution Loop performs at most `n + 1` planning calls and terminates
(the model is a total function), ending in Finished, in Failed with
MaxIterationsExceeded, or — when the Planner errors — in Failed with that
PlannerError; whenever the Planner never errors, the outcome is Finished or
Failed(MaxIterationsExceeded). -/
theorem claim_C3 (plan : List AgentStep → PlanStep)
    (dispatch : AgentAction → String) (n : Nat) :
    (run plan dispatch n).2 ≤ n + 1 ∧
    ((∃ out tr, (run plan dispatch n).1 = .finished out tr) ∨
     (∃ tr, (run plan dispatch n).1 = .failed .maxIterationsExceeded tr) ∨
     (∃ e tr, (run plan dispatch n).1 = .failed (.plannerError e) tr)) ∧
    ((∀ s e, plan s ≠ .perror e) →
      ((∃ out tr, (run plan dispatch n).1 = .finished out tr) ∨
       (∃ tr, (run plan dispatch n).1 = .failed .maxIterationsExceeded tr))) :=
  runAux_props plan dispatch n []

/-- Witness for C3: a planner that always requests one more action, with a
cap of 1, stays within 2 planning calls and — discharging the never-errors
hypothesis of the final conjunct — ends in Finished or
Failed(MaxIterationsExceeded); an always-erroring planner still satisfies
the unconditional call bound. -/
theorem claim_C3_witness :
    (run (fun _ => PlanStep.actions [⟨"calc", "1", "log", "id1"⟩])
        (fun _ => "obs") 1).2 ≤ 2 ∧
    ((∃ out tr, (run (fun _ => PlanStep.actions [⟨"calc", "1", "log", "id1"⟩])
        (fun _ => "obs") 1).1 = .finished out tr) ∨
     (∃ tr, (run (fun _ => PlanStep.actions [⟨"calc", "1", "log", "id1"⟩])
        (fun _ => "obs") 1).1 = .failed .maxIterationsExceeded tr)) ∧
    (run (fun _ => PlanStep.perror "boom") (fun _ => "obs") 7).2 ≤ 8 :=
  ⟨(claim_C3 (fun _ => PlanStep.actions [⟨"calc", "1", "log", "id1"⟩])
      (fun _ => "obs") 1).1,
   (claim_C3 (fun _ => PlanStep.actions [⟨"calc", "1", "log", "id1"⟩])
      (fun _ => "obs") 1).2.2 (fun s e h => PlanStep.noConfusion h),
   (claim_C3 (fun _ => PlanStep.perror "boom") (fun _ => "obs") 7).1⟩

/-- Counterexample to claim C3 as stated: with a Planner that errors, the
run terminates in Failed with a PlannerError, which is a distinct error kind
from MaxIterationsExceeded — so "Finished or Failed(MaxIterationsExceeded)"
does not cover every run. -/
theorem claim_C3_counterexample :
    (run (fun _ => PlanStep.perror "boom") (fun _ => "obs") 5).1
      = RunResult.failed (RunError.plannerError "boom") [] ∧
    RunError.plannerError "boom" ≠ RunError.maxIterationsExceeded :=
  ⟨rfl, by decide⟩

/-! ## NotesReader tool -/

/-- Go `filepath.Base` for slash-separated paths: empty input gives `"."`,
trailing separators are stripped, everything up to the last separator is
dropped, and an all-separator path gives `"/"`. -/
def filepathBase (path : String) : String :=
  if path = "" then "."
  else
    let stripped := (path.data.reverse.dropWhile (fun c => c == '/')).reverse
    if stripped = [] then "/"
    else String.mk ((stripped.reverse.takeWhile (fun c => !(c == '/'))).reverse)

/-- The filesystem as `NotesReader.Call` sees it: `os.Stat` existence,
`os.ReadFile`, and `os.ReadDir` restricted to the names of non-directory
entries (the only part the code uses). -/
structure NotesFS where
  statExists : String → Bool
  readFile : String → Except String String
  readDir : String → Option (List String)

/-- `NotesReader.Call` from the tools package. -/
def notesReaderCall (fs : NotesFS) (input : String) : Except String String :=
  let cleanFilename := filepathBase input
  if cleanFilename ≠ input then
    .error "invalid filename provided; please provide only the filename, e.g., \x27note1.md\x27"
  else
    let filePath := "notes/" ++ cleanFilename
    if fs.statExists filePath = false then
      match fs.readDir "notes" with
      | none => .ok ("File \x27" ++ cleanFilename ++ "\x27 not found.")
      | some files =>
        .ok ("File \x27" ++ cleanFilename ++ "\x27 not found. Available files are:\n"
          ++ files.foldl (fun acc f => acc ++ "- " ++ f ++ "\n") "")
    else
      match fs.readFile filePath with
      | .error e =>
        .error ("error reading file \x27" ++ cleanFilename ++ "\x27: " ++ e)
      | .ok content => .ok content

/-- Claim C9: an input whose `filepath.Base` differs from the input itself is
rejected with an error uniformly over every filesystem — no file is consulted
— and the call's behaviour depends only on the filesystem at the single file
path `notes/<input>` and the directory `notes`, so every file the tool reads
is addressed as a bare filename inside the notes directory. -/
theorem claim_C9 (input : String) :
    (filepathBase input ≠ input → ∀ fs,
      notesReaderCall fs input
        = .error "invalid filename provided; please provide only the filename, e.g., \x27note1.md\x27") ∧
    (∀ fs fs2,
      fs.statExists ("notes/" ++ input) = fs2.statExists ("notes/" ++ input) →
      fs.readFile ("notes/" ++ input) = fs2.readFile ("notes/" ++ input) →
      fs.readDir "notes" = fs2.readDir "notes" →
      notesReaderCall fs input = notesReaderCall fs2 input) := by
  constructor
  · intro hb fs
    rw [notesReaderCall]
    rw [if_pos hb]
  · intro fs fs2 hstat hread hdir
    rw [notesReaderCall, notesReaderCall]
    by_cases hb : filepathBase input ≠ input
    · rw [if_pos hb, if_pos hb]
    · rw [if_neg hb, if_neg hb]
      push_neg at hb
      rw [hb]
      simp only [hstat, hread, hdir]

/-- A concrete filesystem for the C9 witness. -/
def demoFS : NotesFS :=
  ⟨fun _ => true, fun p => .ok ("content of " ++ p), fun _ => some ["a.md"]⟩

/-- A second filesystem agreeing with `demoFS` on the notes paths only. -/
def demoFS2 : NotesFS :=
  ⟨fun _ => true,
   fun p => if p = "elsewhere" then .error "boom" else .ok ("content of " ++ p),
   fun _ => some ["a.md"]⟩

/-- Witness for C9: a path-shaped input is rejected on a concrete
filesystem, and two filesystems agreeing on the notes paths give the same
answer for a bare filename. -/
theorem claim_C9_witness :
    notesReaderCall demoFS "a/b"
      = .error "invalid filename provided; please provide only the filename, e.g., \x27note1.md\x27" ∧
    notesReaderCall demoFS "a.md" = notesReaderCall demoFS2 "a.md" :=
  ⟨(claim_C9 "a/b").1 (by decide) demoFS,
   (claim_C9 "a.md").2 demoFS demoFS2 rfl rfl rfl⟩

/-! ## ListTasks tool input handling -/

/-- `listTasksInput` from the tasks package (`max_results` is a Go `int`). -/
structure ListTasksInput where
  taskListID : String
  includeCompleted : Bool
  maxResults : Int
deriving DecidableEq, Repr, Inhabited

/-- Value of a nonempty digit run. -/
def digitsToNat (ds : List Char) : Nat :=
  ds.foldl (fun n c => n * 10 + (c.toNat - 48)) 0

/-- Integer value of a JSON number literal when it is a plain integer
(json decoding into a Go `int` rejects fractions and exponents). -/
def litToInt (lit : String) : Option Int :=
  match lit.data with
  | [] => none
  | '-' :: ds =>
    if ds ≠ [] ∧ ds.all Char.isDigit then some (- (digitsToNat ds : Int)) else none
  | c :: ds =>
    if (c :: ds).all Char.isDigit then some ((digitsToNat (c :: ds) : Int)) else none

/-- Modelled from the spec: `json.Unmarshal` of an object into the
`listTasksInput` struct — missing fields keep their zero values, unknown
fields are ignored, and a type mismatch is a decoding error. -/
def decodeListTasksInput (m : List (String × Json)) : Except String ListTasksInput :=
  match
    (match lookupEntry "task_list_id" m with
     | none => Except.ok ""
     | some (Json.str s) => Except.ok s
     | some _ => Except.error "json: cannot unmarshal field task_list_id"),
    (match lookupEntry "include_completed" m with
     | none => Except.ok false
     | some (Json.bool b) => Except.ok b
     | some _ => Except.error "json: cannot unmarshal field include_completed"),
    (match lookupEntry "max_results" m with
     | none => Except.ok (0 : Int)
     | some (Json.num lit) =>
       match litToInt lit with
       | some n => Except.ok n
       | none => Except.error "json: cannot unmarshal field max_results"
     | some _ => Except.error "json: cannot unmarshal field max_results") with
  | .ok tid, .ok inc, .ok mr => .ok ⟨tid, inc, mr⟩
  | .error e, _, _ => .error e
  | _, .error e, _ => .error e
  | _, _, .error e => .error e

/-- `json.Unmarshal(trimmed, &payload)` for the list-tasks payload. -/
def unmarshalListTasksInput (s : String) : Except String ListTasksInput :=
  match unmarshalObject s with
  | none => .error "expected a JSON object"
  | some m => decodeListTasksInput m

/-- `parseListTasksInput` from the tasks package. -/
def parseListTasksInput (raw : String) : Except String ListTasksInput :=
  let trimmed := trimSpace raw
  if trimmed = "" then .ok ⟨"", false, 0⟩
  else
    match unmarshalListTasksInput trimmed with
    | .error e => .error ("invalid list tasks payload; expected a JSON object: " ++ e)
    | .ok payload =>
      if payload.maxResults < 0 then .error "max_results must be zero or positive"
      else .ok payload

/-- The `maxResults` switch in `ListTasks.Call`: default 25, the payload's
value when positive, clamped to 100 above 100. -/
def listTasksMaxResults (payload : ListTasksInput) : Int :=
  if payload.maxResults > 100 then 100
  else if payload.maxResults > 0 then payload.maxResults
  else 25

/-- Claim C10: for every well-formed ListTasks input the value sent to the
tasks API is exactly 25 when `max_results` is 0 or absent, the given value
when it lies in 1..100, and 100 when it exceeds 100; a negative
`max_results` is rejected at parse time with an error, so no parsed payload
is ever negative. -/
theorem claim_C10 (raw : String) :
    (∀ payload, parseListTasksInput raw = .ok payload →
      0 ≤ payload.maxResults ∧
      (payload.maxResults = 0 → listTasksMaxResults payload = 25) ∧
      (1 ≤ payload.maxResults → payload.maxResults ≤ 100 →
        listTasksMaxResults payload = payload.maxResults) ∧
      (100 < payload.maxResults → listTasksMaxResults payload = 100)) ∧
    (∀ payload, trimSpace raw ≠ "" →
      unmarshalListTasksInput (trimSpace raw) = .ok payload →
      payload.maxResults < 0 →
      parseListTasksInput raw = .error "max_results must be zero or positive") := by
  constructor
  · intro payload hok
    have hnn : 0 ≤ payload.maxResults := by
      rw [parseListTasksInput] at hok
      by_cases he : trimSpace raw = ""
      · simp only [he, if_true, reduceIte] at hok
        cases hok
        simp
      · simp only [he, if_false, reduceIte] at hok
        cases hu : unmarshalListTasksInput (trimSpace raw) with
        | error e => rw [hu] at hok; cases hok
        | ok p =>
          rw [hu] at hok
          simp only [] at hok
          by_cases hneg : p.maxResults < 0
          · rw [if_pos hneg] at hok; cases hok
          · rw [if_neg hneg] at hok
            cases hok
            omega
    refine ⟨hnn, ?_, ?_, ?_⟩
    · intro h0
      rw [listTasksMaxResults, if_neg (by omega), if_neg (by omega)]
    · intro h1 h100
      by_cases hgt : payload.maxResults > 100
      · omega
      · rw [listTasksMaxResults, if_neg hgt, if_pos (by omega)]
    · intro hgt
      rw [listTasksMaxResults, if_pos (by omega)]
  · intro payload hne hu hneg
    rw [parseListTasksInput]
    simp only [hne, if_false, reduceIte, hu]
    rw [if_pos hneg]

/-- Witness for C10: `max_results` of 150 is parsed and clamped to 100, and
a negative `max_results` is rejected at parse time. -/
theorem claim_C10_witness :
    (∃ payload,
      parseListTasksInput "\x7b\"max_results\":150\x7d" = .ok payload ∧
      listTasksMaxResults payload = 100) ∧
    parseListTasksInput "\x7b\"max_results\":-1\x7d"
      = .error "max_results must be zero or positive" := by
  constructor
  · refine ⟨⟨"", false, 150⟩, rfl, ?_⟩
    exact ((claim_C10 "\x7b\"max_results\":150\x7d").1 ⟨"", false, 150⟩ rfl).2.2.2
      (by norm_num)
  · exact (claim_C10 "\x7b\"max_results\":-1\x7d").2 ⟨"", false, -1⟩ (by decide) rfl
      (by norm_num)

end GroundHog
